import Mathlib

set_option linter.unusedVariables false

namespace Intelephense

mutual
/-- Rose trees embedding the `TreeLike` interface of the source (`types.ts`):
a node carries a label and an ordered list of children.  `Forest` is the
children list, mutually inductive with `Tree` so that the traversal engine
can be defined by structural recursion. -/
inductive Tree (α : Type) where
  | node : α → Forest α → Tree α
  deriving DecidableEq
/-- The children list of a `Tree` node. -/
inductive Forest (α : Type) where
  | nil : Forest α
  | cons : Tree α → Forest α → Forest α
  deriving DecidableEq
end

variable {α σ : Type}

/-- The label stored at a node. -/
def Tree.label : Tree α → α
  | .node a _ => a

/-- The `children` list of a node (`TreeLike.children`). -/
def Tree.children : Tree α → Forest α
  | .node _ f => f

/-- View a `Forest` as an ordinary list of trees. -/
def Forest.toList : Forest α → List (Tree α)
  | .nil => []
  | .cons t f => t :: Forest.toList f

/-- `TreeVisitor` from `types.ts`: optional `preOrder`/`postOrder` hooks and a
`haltTraverse` flag.  The visitor's mutable fields are modelled as an explicit
state `σ`; a hook consumes the state and returns the updated state (plus the
`descend` boolean for `preOrder`), and `haltTraverse` reads the flag from the
state. -/
structure TreeVisitor (α σ : Type) where
  preOrder : Option (σ → Tree α → List (Tree α) → σ × Bool) := none
  postOrder : Option (σ → Tree α → List (Tree α) → σ) := none
  haltTraverse : σ → Bool

mutual
/-- `TreeTraverser._traverse` from `types.ts`.  The mutable `spine` array is
passed functionally: the source pushes `treeNode` before the children loop and
pops it after, so each recursive call sees `spine ++ [treeNode]`; on the
halt-return paths the array is left pushed but is never read again (every
caller also returns at once, and `traverse` hands `_traverse` a copy).
The source guards the children loop with `treeNode.children && descend`; an
absent or empty children list makes the loop a no-op, which is what the
`Forest.nil` case of `traverseForest` does. -/
def traverseAux (v : TreeVisitor α σ) : Tree α → σ → List (Tree α) → σ
  | .node a cs, s, spine =>
    if v.haltTraverse s then s
    else
      let t := Tree.node a cs
      let pre : σ × Bool :=
        match v.preOrder with
        | some f => f s t spine
        | none => (s, true)
      if v.haltTraverse pre.1 then pre.1
      else
        let s2 := if pre.2 then traverseForest v cs pre.1 (spine ++ [t]) else pre.1
        if v.haltTraverse s2 then s2
        else
          match v.postOrder with
          | some g => g s2 t spine
          | none => s2

/-- The `for` loop over `treeNode.children` inside `_traverse`: after each
child the source checks `visitor.haltTraverse` and returns early. -/
def traverseForest (v : TreeVisitor α σ) : Forest α → σ → List (Tree α) → σ
  | .nil, s, _ => s
  | .cons c rest, s, spine =>
    let s' := traverseAux v c s spine
    if v.haltTraverse s' then s' else traverseForest v rest s' spine
end

/-- `TreeTraverser.traverse` from `types.ts`: starts `_traverse` at the
traverser's current node (the last element of its spine) and passes a copy of
the whole spine (`this.spine.slice(0)`).  An empty spine makes `this.node`
`null` in the source (which would then crash dereferencing `null.children`);
that degenerate case is modelled as the identity. -/
def TreeTraverser.traverse (v : TreeVisitor α σ) (spine : List (Tree α)) (s : σ) : σ :=
  match spine.getLast? with
  | none => s
  | some t => traverseAux v t s spine

/-- One observed hook invocation: the visitor state on entry to the hook, the
node passed, and the spine passed. -/
inductive HookCall (α σ : Type) where
  | pre : σ → Tree α → List (Tree α) → HookCall α σ
  | post : σ → Tree α → List (Tree α) → HookCall α σ

/-- The node a hook call was invoked on. -/
def HookCall.node : HookCall α σ → Tree α
  | .pre _ t _ => t
  | .post _ t _ => t

/-- The spine passed to a hook call. -/
def HookCall.spine : HookCall α σ → List (Tree α)
  | .pre _ _ sp => sp
  | .post _ _ sp => sp

/-- The visitor state on entry to a hook call. -/
def HookCall.preState : HookCall α σ → σ
  | .pre s _ _ => s
  | .post s _ _ => s

/-- The visitor state produced by a hook call of visitor `v`. -/
def hookResult (v : TreeVisitor α σ) : HookCall α σ → σ
  | .pre s t sp =>
    match v.preOrder with
    | some f => (f s t sp).1
    | none => s
  | .post s t sp =>
    match v.postOrder with
    | some g => g s t sp
    | none => s

/-- A trace of hook calls is chained when each call's recorded entry state is
the state produced by the previous call, starting from `s` and ending in the
final state `sf`.  (In the engine the visitor state changes only inside
hooks.) -/
def ChainOK (v : TreeVisitor α σ) : σ → List (HookCall α σ) → σ → Prop
  | s, [], sf => sf = s
  | s, c :: rest, sf => c.preState = s ∧ ChainOK v (hookResult v c) rest sf

/-- Instrument a visitor so that its state additionally carries the list of
hook invocations performed so far; the underlying hooks and halt flag are
unchanged.  Running the engine with `record v` runs it with `v` and also
yields the exact sequence of hook calls. -/
def record (v : TreeVisitor α σ) : TreeVisitor α (σ × List (HookCall α σ)) where
  preOrder := v.preOrder.map fun f => fun sl t sp =>
    (((f sl.1 t sp).1, sl.2 ++ [HookCall.pre sl.1 t sp]), (f sl.1 t sp).2)
  postOrder := v.postOrder.map fun g => fun sl t sp =>
    ((g sl.1 t sp, sl.2 ++ [HookCall.post sl.1 t sp]))
  haltTraverse := fun sl => v.haltTraverse sl.1

/-- A position in a tree, as the list of child indices taken from the root. -/
def nodeAt : List Nat → Tree α → Option (Tree α)
  | [], t => some t
  | i :: p, t =>
    match (Forest.toList (Tree.children t)).get? i with
    | some c => nodeAt p c
    | none => none

/-- The nodes strictly above the position `p` inside the subtree rooted at
`t`, ordered from `t` downward (empty for `p = []`, i.e. for `t` itself). -/
def ancestorsAlong : List Nat → Tree α → List (Tree α)
  | [], _ => []
  | i :: p, t =>
    t :: (match (Forest.toList (Tree.children t)).get? i with
          | some c => ancestorsAlong p c
          | none => [])

mutual
/-- Depth-first preorder listing of the nodes of a tree. -/
def preorderList : Tree α → List (Tree α)
  | .node a cs => Tree.node a cs :: preorderForest cs
/-- Depth-first preorder listing of the nodes of a forest. -/
def preorderForest : Forest α → List (Tree α)
  | .nil => []
  | .cons c rest => preorderList c ++ preorderForest rest
end

mutual
/-- The path from `t` (inclusive) down to the first node, in depth-first
preorder, satisfying `pred` (inclusive); `none` when no node of the subtree
satisfies `pred`.  This is the specification value that characterises what
the source's `FindVisitor` records. -/
def findSpine (pred : Tree α → Bool) : Tree α → Option (List (Tree α))
  | .node a cs =>
    if pred (Tree.node a cs) then some [Tree.node a cs]
    else (findSpineF pred cs).map (fun l => Tree.node a cs :: l)
/-- `findSpine` over a forest: the path inside the first child subtree that
contains a match. -/
def findSpineF (pred : Tree α → Bool) : Forest α → Option (List (Tree α))
  | .nil => none
  | .cons c rest =>
    match findSpine pred c with
    | some l => some l
    | none => findSpineF pred rest
end

/-- The elements of `l` up to and including the first one satisfying `pred`
(all of `l` when none does). -/
def takeToMatch (pred : β → Bool) : List β → List β
  | [] => []
  | x :: xs => if pred x then [x] else x :: takeToMatch pred xs

/-- The mutable state of the source's `FindVisitor`: the `_found` spine
(`undefined` until a match, hence `Option`) and the `haltTraverse` flag. -/
structure FindState (α : Type) where
  found : Option (List (Tree α)) := none
  haltTraverse : Bool := false
  deriving DecidableEq

/-- `FindVisitor` from `types.ts`: on a match it records
`spine.slice(0)` with the node pushed, sets `haltTraverse`, and returns
`false`; otherwise it descends. -/
def findVisitor (pred : Tree α → Bool) : TreeVisitor α (FindState α) where
  preOrder := some fun s t sp =>
    if pred t then ({ found := some (sp ++ [t]), haltTraverse := true }, false)
    else (s, true)
  postOrder := none
  haltTraverse := fun s => s.haltTraverse

/-- `TreeTraverser.find` from `types.ts`: run a fresh `FindVisitor`, and when
it found a spine, replace the traverser's spine with it and return the (new)
current node; otherwise return `null` and leave the spine alone.  The
traverser is modelled by its spine; the result is the returned node paired
with the traverser's spine after the call. -/
def TreeTraverser.find (pred : Tree α → Bool) (spine : List (Tree α)) :
    Option (Tree α) × List (Tree α) :=
  match spine.getLast? with
  | none => (none, spine)
  | some t =>
    let res := traverseAux (findVisitor pred) t { found := none, haltTraverse := false } spine
    match res.found with
    | some fs => (fs.getLast?, fs)
    | none => (none, spine)

/-- `TreeTraverser.prevSibling` from `types.ts`.  The source computes
`childIndex = parent.children.indexOf(this)`: the argument is the traverser
object itself, never a child node, so `indexOf` always returns `-1`; the
guard `childIndex > 0` is then always false.  The result is the returned node
paired with the traverser's spine after the call. -/
def TreeTraverser.prevSibling (spine : List (Tree α)) :
    Option (Tree α) × List (Tree α) :=
  if spine.length < 2 then (none, spine)
  else
    let childIndex : Int := -1
    if childIndex > 0 then (none, spine)
    else (none, spine)

/-- `TreeTraverser.nextSibling` from `types.ts`.  As in `prevSibling`,
`childIndex = parent.children.indexOf(this)` is always `-1`, so the guard
`childIndex < parent.children.length - 1` holds precisely when the parent has
at least one child, and `parent.children[childIndex + 1]` is then
`parent.children[0]`: the spine top is replaced by the parent's first child. -/
def TreeTraverser.nextSibling (spine : List (Tree α)) :
    Option (Tree α) × List (Tree α) :=
  if h : spine.length < 2 then (none, spine)
  else
    let parent := spine.get ⟨spine.length - 2, by omega⟩
    let childIndex : Int := -1
    if childIndex < (((Forest.toList (Tree.children parent)).length : Int) - 1) then
      match Forest.toList (Tree.children parent) with
      | [] => (none, spine)
      | c :: _ => (some c, spine.dropLast ++ [c])
    else (none, spine)

/-- `Event.subscribe` from `types.ts`: push the handler and capture the index
`subscribed.length - 1` in the returned unsubscribe closure.  Handlers are
modelled by identifiers; the result is the new subscriber list paired with
the captured index. -/
def Event.subscribe {H : Type} (handler : H) (subscribed : List H) : List H × Nat :=
  (subscribed ++ [handler], subscribed.length)

/-- Invoking an unsubscribe token from `Event.subscribe`: the closure runs
`subscribed.splice(index, 1)`, removing whatever element currently sits at the
captured index. -/
def Event.unsubscribe {H : Type} (index : Nat) (subscribed : List H) : List H :=
  subscribed.take index ++ subscribed.drop (index + 1)

/-- The state of one `Event.trigger` call: the live subscriber list (handlers
invoked during the call may append to it via `subscribe`) and the handlers
invoked so far. -/
structure EvState (H : Type) where
  subscribed : List H
  invoked : List H := []
  deriving DecidableEq

/-- The loop of `Event.trigger` from `types.ts`:
`for (n = 0; n < subscribed.length; ++n) subscribed[n](args)`.  The length is
re-read from the live array on every iteration.  A handler's effect on the
subscriber list is given by `behavior`: invoking `h` pushes the handlers
`behavior h` (the effect relevant to the claims about mid-trigger
subscription).  The source loop need not terminate when handlers keep
subscribing, so the model takes a fuel bound and returns `none` when the fuel
runs out before the loop condition fails. -/
def Event.triggerLoop {H : Type} (behavior : H → List H) :
    Nat → Nat → EvState H → Option (EvState H)
  | 0, _, _ => none
  | fuel + 1, n, st =>
    if hn : n < st.subscribed.length then
      let handler := st.subscribed.get ⟨n, hn⟩
      Event.triggerLoop behavior fuel (n + 1)
        { subscribed := st.subscribed ++ behavior handler,
          invoked := st.invoked ++ [handler] }
    else some st

/-- `Event.trigger`: run the loop from index 0 on the current subscriber
list. -/
def Event.trigger {H : Type} (behavior : H → List H) (fuel : Nat)
    (subscribed : List H) : Option (EvState H) :=
  Event.triggerLoop behavior fuel 0 { subscribed := subscribed, invoked := [] }

/-- `Debounce` from `types.ts`.  `_wait` is the construction-time wait read by
`handle`; `timer` is the pending `setTimeout` as (fire time, captured event);
`fired` logs the invocations of the wrapped handler as (time, event).
`waitProp` models the JavaScript property created by an assignment
`debounce.wait = v`: the class declares no `wait` member (and no setter), so
the assignment creates a fresh own property `wait` and leaves `_wait`
untouched. -/
structure Debounce (E : Type) where
  _wait : Nat
  timer : Option (Nat × E) := none
  lastEvent : Option E := none
  fired : List (Nat × E) := []
  waitProp : Option Nat := none
  deriving DecidableEq

/-- The `Debounce` constructor: stores the handler (implicit in `fired`) and
the wait time. -/
def Debounce.new (E : Type) (wait : Nat) : Debounce E :=
  { _wait := wait }

/-- `Debounce.clear`: cancel the pending timer and null the recorded event. -/
def Debounce.clear {E : Type} (d : Debounce E) : Debounce E :=
  { d with timer := none, lastEvent := none }

/-- Timer delivery by the event loop: a pending timer whose fire time has been
reached fires the wrapped handler with the captured event and then runs
`clear` (the scheduled callback is `handler(event); clear()`). -/
def Debounce.fireDue {E : Type} (now : Nat) (d : Debounce E) : Debounce E :=
  match d.timer with
  | some (tf, e) =>
    if tf ≤ now then
      { d with fired := d.fired ++ [(tf, e)], timer := none, lastEvent := none }
    else d
  | none => d

/-- `Debounce.handle` called at time `now`: any timer already due has fired;
then the source runs `clear()`, records the event, and schedules the handler
`_wait` milliseconds later. -/
def Debounce.handle {E : Type} (now : Nat) (e : E) (d : Debounce E) : Debounce E :=
  let d1 := Debounce.fireDue now d
  let d2 := d1.clear
  { d2 with lastEvent := some e, timer := some (now + d2._wait, e) }

/-- Let the event loop run to quiescence after the last call: a pending timer
fires at its scheduled time. -/
def Debounce.finish {E : Type} (d : Debounce E) : Debounce E :=
  match d.timer with
  | some (tf, e) =>
    { d with fired := d.fired ++ [(tf, e)], timer := none, lastEvent := none }
  | none => d

/-- Feed a chronological sequence of `handle` calls to a debouncer. -/
def Debounce.run {E : Type} (calls : List (Nat × E)) (d : Debounce E) : Debounce E :=
  calls.foldl (fun d c => Debounce.handle c.1 c.2 d) d

/-- Models the JavaScript assignment `debounce.wait = v` performed by
`DiagnosticsProvider`'s `debounceWait` setter: the source's `Debounce` class
has no `wait` member, so the assignment creates an unrelated own property and
`_wait` keeps its construction-time value. -/
def Debounce.setWaitProperty {E : Type} (v : Nat) (d : Debounce E) : Debounce E :=
  { d with waitProp := some v }

/-- Whether the timestamps of a chronological call sequence are ordered with
consecutive gaps strictly below `w`. -/
def gapsLT {E : Type} (w : Nat) : List (Nat × E) → Bool
  | [] => true
  | [_] => true
  | a :: b :: rest => decide (a.1 ≤ b.1) && decide (b.1 < a.1 + w) && gapsLT w (b :: rest)

/-- A token of the external `php7parser` (out of scope in the spec): kind tag,
offset and length. -/
structure PhpToken where
  tokenType : Nat
  offset : Nat
  length : Nat
  deriving DecidableEq

/-- A parse error attached to a phrase, carrying the unexpected token. -/
structure ParseErr where
  unexpected : PhpToken
  deriving DecidableEq

/-- Modelled from the spec: `tokenTypeToString` of the external `php7parser`
names a token kind; any injective naming works for the claims. -/
def tokenTypeToString (n : Nat) : String :=
  toString n

/-- An LSP diagnostic as built by `_parseErrorToDiagnostic`: range, severity
(`lsp.DiagnosticSeverity.Error = 1`), source and message. -/
structure Diagnostic where
  range : Nat × Nat
  severity : Nat
  source : String
  message : String
  deriving DecidableEq

/-- The label of a node of a parse tree: whether the node is a phrase (as
opposed to a token) and the parse errors attached to it (`undefined` or an
array in the source, hence `Option`). -/
structure PhraseLabel where
  isPhrase : Bool
  errors : Option (List ParseErr)
  deriving DecidableEq

/-- Modelled from the spec: `ParsedDocument` (its module is not in the
sources; only its use sites are) is a URI together with the parse tree — the
root phrase with children and attached parse errors. -/
structure ParsedDocument where
  uri : String
  tree : Tree PhraseLabel
  deriving DecidableEq

/-- Modelled from the spec: `ParsedDocument.tokenRange` derives a range from
the unexpected token's offset and length. -/
def ParsedDocument.tokenRange (doc : ParsedDocument) (t : PhpToken) : Nat × Nat :=
  (t.offset, t.offset + t.length)

/-- Modelled from the spec: `ParsedDocument.traverse` walks the document's
parse tree with the given visitor, using a `TreeTraverser` rooted at the root
phrase. -/
def ParsedDocument.traverse {σ : Type} (doc : ParsedDocument)
    (v : TreeVisitor PhraseLabel σ) (s : σ) : σ :=
  TreeTraverser.traverse v [doc.tree] s

/-- `ErrorVisitor` from the diagnostics provider source: on `preOrder`, when
the node is a phrase and its `errors` field is defined (`[]` is truthy in
JavaScript, so emptiness is not tested), append the attached errors; always
descend, never halt. -/
def errorVisitor : TreeVisitor PhraseLabel (List ParseErr) where
  preOrder := some fun s t _ =>
    (if t.label.isPhrase && t.label.errors.isSome then s ++ t.label.errors.getD []
     else s, true)
  postOrder := none
  haltTraverse := fun _ => false

/-- The state of `DiagnosticsProvider`.  `maxItems` is the public field the
constructor sets to 100; `_maxItems` is the declared private field that no
statement of the source ever assigns, so it is forever `undefined` (`none`).
The debounce and unsubscribe maps are association lists keyed by URI (the
newest binding shadows, matching JavaScript object assignment). -/
structure DiagnosticsProvider where
  maxItems : Nat
  docs : List ParsedDocument
  debounceWaitTime : Nat
  debounceMap : List (String × Debounce String)
  unsubscribeMap : List String
  diagnosticsMap : List (String × List Diagnostic)
  _maxItems : Option Nat
  deriving DecidableEq

/-- The `DiagnosticsProvider` constructor: wait time 1000, empty maps,
`maxItems = 100`; `_maxItems` is left unassigned. -/
def DiagnosticsProvider.new : DiagnosticsProvider where
  maxItems := 100
  docs := []
  debounceWaitTime := 1000
  debounceMap := []
  unsubscribeMap := []
  diagnosticsMap := []
  _maxItems := none

/-- The `while ((doc = this._docs.shift()))` loop of
`DiagnosticsProvider._find`: every document is popped; non-matching ones are
pushed onto `shifted`, a matching one is remembered (a later match would
overwrite an earlier one). -/
def DiagnosticsProvider.findLoop (uri : String) :
    List ParsedDocument → List ParsedDocument → Option ParsedDocument →
    Option ParsedDocument × List ParsedDocument
  | [], shifted, found => (found, shifted)
  | d :: rest, shifted, found =>
    if d.uri = uri then DiagnosticsProvider.findLoop uri rest shifted (some d)
    else DiagnosticsProvider.findLoop uri rest (shifted ++ [d]) found

/-- `DiagnosticsProvider._find`: destructively rebuild `_docs` without the
matching document and unshift the match to the front when present (the MRU
move-to-front). -/
def DiagnosticsProvider._find (uri : String) (st : DiagnosticsProvider) :
    Option ParsedDocument × DiagnosticsProvider :=
  let r := DiagnosticsProvider.findLoop uri st.docs [] none
  match r.1 with
  | some f => (some f, { st with docs := f :: r.2 })
  | none => (none, { st with docs := r.2 })

/-- `DiagnosticsProvider.has`: truthiness of `_find` (which also performs the
move-to-front side effect). -/
def DiagnosticsProvider.has (uri : String) (st : DiagnosticsProvider) :
    Bool × DiagnosticsProvider :=
  let r := DiagnosticsProvider._find uri st
  (r.1.isSome, r.2)

/-- `DiagnosticsProvider.add`: throw `'Duplicate Key'` when `has(doc.uri)`;
otherwise unshift the document, create the per-URI debouncer wired to
`_onParsedDocumentChanged` with the current wait time, and subscribe to the
document's change event, remembering the unsubscriber under the URI. -/
def DiagnosticsProvider.add (doc : ParsedDocument) (st : DiagnosticsProvider) :
    Except String DiagnosticsProvider :=
  let h := DiagnosticsProvider.has doc.uri st
  if h.1 then .error "Duplicate Key"
  else .ok { h.2 with
    docs := doc :: h.2.docs,
    debounceMap := (doc.uri, Debounce.new String h.2.debounceWaitTime) :: h.2.debounceMap,
    unsubscribeMap := doc.uri :: h.2.unsubscribeMap }

/-- The `debounceWait` setter of `DiagnosticsProvider`: store the new wait
time and assign `debounce.wait = value` on every mapped debouncer — which, the
`Debounce` class declaring no `wait` member, only creates an unrelated
property on each. -/
def DiagnosticsProvider.setDebounceWait (v : Nat) (st : DiagnosticsProvider) :
    DiagnosticsProvider :=
  { st with
    debounceWaitTime := v,
    debounceMap := st.debounceMap.map fun p => (p.1, Debounce.setWaitProperty v p.2) }

/-- `DiagnosticsProvider._parseErrorToDiagnostic`: severity `Error`, source
`intelephense`, message naming the unexpected token, range from the token. -/
def DiagnosticsProvider.parseErrorToDiagnostic (err : ParseErr)
    (doc : ParsedDocument) : Diagnostic where
  range := doc.tokenRange err.unexpected
  severity := 1
  source := "intelephense"
  message := "Unexpected " ++ tokenTypeToString err.unexpected.tokenType

/-- JavaScript `array.slice(0, end)`: when `end` is `undefined` the whole
array is copied (`Array.prototype.slice` substitutes the array length), so an
undefined cap keeps every element. -/
def jsSliceTo {β : Type} (l : List β) : Option Nat → List β
  | none => l
  | some n => l.take n

/-- `DiagnosticsProvider._diagnose`: collect the document's parse errors with
an `ErrorVisitor`, convert them to diagnostics, cache them under the URI, then
concatenate the cached lists of all registered documents (in `_docs` order; a
URI without a cache entry contributes nothing, as
`push.apply(xs, undefined)` pushes nothing) and return
`diagnostics.slice(0, this._maxItems)`.  For a URI with no registered
document the source would crash on `doc.traverse`; that unreachable branch
returns the empty list. -/
def DiagnosticsProvider._diagnose (uri : String) (st : DiagnosticsProvider) :
    List Diagnostic × DiagnosticsProvider :=
  let r := DiagnosticsProvider._find uri st
  match r.1 with
  | none => ([], r.2)
  | some doc =>
    let parseErrors := doc.traverse errorVisitor []
    let diagnostics := parseErrors.map fun e =>
      DiagnosticsProvider.parseErrorToDiagnostic e doc
    let st1 := { r.2 with diagnosticsMap := (uri, diagnostics) :: r.2.diagnosticsMap }
    let all := st1.docs.foldl
      (fun acc d => acc ++ ((st1.diagnosticsMap.lookup d.uri).getD [])) []
    (jsSliceTo all st1._maxItems, st1)

/-- `_onParsedDocumentChanged`: fired (after debouncing) on a document change;
triggers the start event, runs `_diagnose`, and triggers the publish event
with `{ uri, diagnostics }`.  The result is the publish payload paired with
the new provider state. -/
def DiagnosticsProvider.onParsedDocumentChanged (uri : String)
    (st : DiagnosticsProvider) : (String × List Diagnostic) × DiagnosticsProvider :=
  let r := DiagnosticsProvider._diagnose uri st
  ((uri, r.1), r.2)

/-- A handler behaviour for `Event.trigger` scenarios: handler `0` subscribes
handler `1` when invoked; every other handler does nothing. -/
def subscriberBehavior : Nat → List Nat
  | 0 => [1]
  | _ => []

/-- Concrete single node used in traversal scenarios. -/
def tZero : Tree Nat := Tree.node 0 Forest.nil

/-- Concrete leaf `a`. -/
def aNode : Tree Nat := Tree.node 1 Forest.nil

/-- Concrete leaf `b`. -/
def bNode : Tree Nat := Tree.node 2 Forest.nil

/-- Concrete leaf `c`. -/
def cNode : Tree Nat := Tree.node 3 Forest.nil

/-- A root with ordered children `a`, `b`, `c`. -/
def rootABC : Tree Nat :=
  Tree.node 0 (Forest.cons aNode (Forest.cons bNode (Forest.cons cNode Forest.nil)))

/-- A visitor with both hooks present that records nothing and never halts. -/
def unitVisitor (α : Type) : TreeVisitor α Unit where
  preOrder := some fun s _ _ => (s, true)
  postOrder := some fun s _ _ => s
  haltTraverse := fun _ => false

/-- A visitor whose `preOrder` hook sets the halt flag on the first node. -/
def haltingVisitor (α : Type) : TreeVisitor α Bool where
  preOrder := some fun _ _ _ => (true, true)
  postOrder := none
  haltTraverse := fun s => s

/-- A concrete parsed document with no parse errors. -/
def docA : ParsedDocument :=
  { uri := "file:///a.php", tree := Tree.node { isPhrase := true, errors := none } Forest.nil }

/-- 101 distinct parse errors. -/
def err101 : List ParseErr :=
  (List.range 101).map fun i => { unexpected := { tokenType := i, offset := i, length := 1 } }

/-- A parsed document whose root phrase carries 101 parse errors. -/
def doc101 : ParsedDocument :=
  { uri := "file:///big.php",
    tree := Tree.node { isPhrase := true, errors := some err101 } Forest.nil }

/-- The tail segment of `_traverse` after the children loop: return the state
unchanged when the visitor halted during the children, otherwise fire the
`postOrder` hook if present. -/
def postPhase (v : TreeVisitor α σ) (tnode : Tree α) (sp : List (Tree α)) (s2 : σ) : σ :=
  if v.haltTraverse s2 then s2
  else
    match v.postOrder with
    | some g => g s2 tnode sp
    | none => s2

/-- A hook call is spine-correct for a traversal of the subtree `t` started
with initial spine `sp` when its node sits at some position `p` of `t` and
its spine is `sp` followed by the nodes of `t` strictly above `p`. -/
def TreeSpineOK (t : Tree α) (sp : List (Tree α)) (c : HookCall α σ) : Prop :=
  ∃ p, nodeAt p t = some c.node ∧ c.spine = sp ++ ancestorsAlong p t

/-- Spine-correctness relative to some child subtree of a forest. -/
def ForestSpineOK (f : Forest α) (sp : List (Tree α)) (c : HookCall α σ) : Prop :=
  ∃ c' ∈ Forest.toList f, TreeSpineOK c' sp c

/-! ## Traversal engine: unfolding lemmas -/

/-- A halted visitor makes `_traverse` return at once. -/
theorem traverseAux_halted (v : TreeVisitor α σ) (t : Tree α) (s : σ)
    (sp : List (Tree α)) (hh : v.haltTraverse s = true) :
    traverseAux v t s sp = s := by
  cases t with
  | node a cs => rw [traverseAux]; simp [hh]

/-- Unfolding of `_traverse` for a non-halted visitor without a `preOrder`
hook. -/
theorem traverseAux_eq_no_pre (v : TreeVisitor α σ) (a : α) (cs : Forest α)
    (s : σ) (sp : List (Tree α)) (hh : v.haltTraverse s = false)
    (hp : v.preOrder = none) :
    traverseAux v (.node a cs) s sp =
      postPhase v (Tree.node a cs) sp
        (traverseForest v cs s (sp ++ [Tree.node a cs])) := by
  rw [traverseAux, postPhase]
  simp [hh, hp]

/-- Unfolding of `_traverse` for a non-halted visitor with a `preOrder` hook
whose call halts the traversal. -/
theorem traverseAux_eq_pre_halt (v : TreeVisitor α σ)
    (f : σ → Tree α → List (Tree α) → σ × Bool) (a : α) (cs : Forest α)
    (s : σ) (sp : List (Tree α)) (hh : v.haltTraverse s = false)
    (hp : v.preOrder = some f)
    (hh1 : v.haltTraverse (f s (Tree.node a cs) sp).1 = true) :
    traverseAux v (.node a cs) s sp = (f s (Tree.node a cs) sp).1 := by
  rw [traverseAux]
  simp [hh, hp, hh1]

/-- Unfolding of `_traverse` for a non-halted visitor with a `preOrder` hook
that does not halt and requests descent. -/
theorem traverseAux_eq_pre_descend (v : TreeVisitor α σ)
    (f : σ → Tree α → List (Tree α) → σ × Bool) (a : α) (cs : Forest α)
    (s : σ) (sp : List (Tree α)) (hh : v.haltTraverse s = false)
    (hp : v.preOrder = some f)
    (hh1 : v.haltTraverse (f s (Tree.node a cs) sp).1 = false)
    (hd : (f s (Tree.node a cs) sp).2 = true) :
    traverseAux v (.node a cs) s sp =
      postPhase v (Tree.node a cs) sp
        (traverseForest v cs (f s (Tree.node a cs) sp).1
          (sp ++ [Tree.node a cs])) := by
  rw [traverseAux, postPhase]
  simp [hh, hp, hh1, hd]

/-- Unfolding of `_traverse` for a non-halted visitor with a `preOrder` hook
that does not halt and declines descent. -/
theorem traverseAux_eq_pre_skip (v : TreeVisitor α σ)
    (f : σ → Tree α → List (Tree α) → σ × Bool) (a : α) (cs : Forest α)
    (s : σ) (sp : List (Tree α)) (hh : v.haltTraverse s = false)
    (hp : v.preOrder = some f)
    (hh1 : v.haltTraverse (f s (Tree.node a cs) sp).1 = false)
    (hd : (f s (Tree.node a cs) sp).2 = false) :
    traverseAux v (.node a cs) s sp =
      postPhase v (Tree.node a cs) sp (f s (Tree.node a cs) sp).1 := by
  rw [traverseAux, postPhase]
  simp [hh, hp, hh1, hd]

/-- Unfolding of the children loop for the empty forest. -/
theorem traverseForest_nil (v : TreeVisitor α σ) (s : σ) (sp : List (Tree α)) :
    traverseForest v .nil s sp = s := by
  rw [traverseForest]

/-- Unfolding of the children loop for a nonempty forest. -/
theorem traverseForest_cons (v : TreeVisitor α σ) (c : Tree α) (rest : Forest α)
    (s : σ) (sp : List (Tree α)) :
    traverseForest v (.cons c rest) s sp =
      (if v.haltTraverse (traverseAux v c s sp) then traverseAux v c s sp
       else traverseForest v rest (traverseAux v c s sp) sp) := by
  rw [traverseForest]

/-- The halt flag of a recording visitor reads the underlying state. -/
theorem record_halt (v : TreeVisitor α σ) (s : σ) (l : List (HookCall α σ)) :
    (record v).haltTraverse (s, l) = v.haltTraverse s := rfl

/-- The recording visitor of a hookless-`preOrder` visitor has no `preOrder`
hook either. -/
theorem record_preOrder_none (v : TreeVisitor α σ) (hp : v.preOrder = none) :
    (record v).preOrder = none := by
  simp [record, hp]

/-- The `preOrder` hook of a recording visitor. -/
theorem record_preOrder_some (v : TreeVisitor α σ)
    (f : σ → Tree α → List (Tree α) → σ × Bool) (hp : v.preOrder = some f) :
    (record v).preOrder = some fun sl t sp =>
      (((f sl.1 t sp).1, sl.2 ++ [HookCall.pre sl.1 t sp]), (f sl.1 t sp).2) := by
  simp [record, hp]

/-- The recording visitor of a hookless-`postOrder` visitor has no
`postOrder` hook either. -/
theorem record_postOrder_none (v : TreeVisitor α σ) (hq : v.postOrder = none) :
    (record v).postOrder = none := by
  simp [record, hq]

/-- The `postOrder` hook of a recording visitor. -/
theorem record_postOrder_some (v : TreeVisitor α σ)
    (g : σ → Tree α → List (Tree α) → σ) (hq : v.postOrder = some g) :
    (record v).postOrder = some fun sl t sp =>
      ((g sl.1 t sp, sl.2 ++ [HookCall.post sl.1 t sp])) := by
  simp [record, hq]

/-- Chained traces compose. -/
theorem chainOK_append (v : TreeVisitor α σ) :
    ∀ (A : List (HookCall α σ)) (s m : σ) (B : List (HookCall α σ)) (fin : σ),
      ChainOK v s A m → ChainOK v m B fin → ChainOK v s (A ++ B) fin := by
  intro A
  induction A with
  | nil =>
    intro s m B fin hA hB
    rw [ChainOK] at hA
    subst hA
    exact hB
  | cons a A ih =>
    intro s m B fin hA hB
    obtain ⟨h1, h2⟩ := hA
    exact ⟨h1, ih _ _ _ _ h2 hB⟩

/-- A suffix of a chained trace is chained from some intermediate state. -/
theorem chainOK_decomp (v : TreeVisitor α σ) :
    ∀ (A : List (HookCall α σ)) (s : σ) (B : List (HookCall α σ)) (fin : σ),
      ChainOK v s (A ++ B) fin → ∃ m, ChainOK v m B fin := by
  intro A
  induction A with
  | nil => intro s B fin h; exact ⟨s, h⟩
  | cons a A ih =>
    intro s B fin h
    obtain ⟨_, h2⟩ := h
    exact ih _ _ _ h2

/-- A `preOrder` hook call at the subtree root with the initial spine is
spine-correct. -/
theorem treeSpineOK_pre_self (t : Tree α) (sp : List (Tree α)) (s : σ) :
    TreeSpineOK t sp (HookCall.pre s t sp) :=
  ⟨[], rfl, by simp [ancestorsAlong, HookCall.spine]⟩

/-- A `postOrder` hook call at the subtree root with the initial spine is
spine-correct. -/
theorem treeSpineOK_post_self (t : Tree α) (sp : List (Tree α)) (s : σ) :
    TreeSpineOK t sp (HookCall.post s t sp) :=
  ⟨[], rfl, by simp [ancestorsAlong, HookCall.spine]⟩

/-- A hook call that is spine-correct for the children forest with the pushed
spine is spine-correct for the node with the unpushed spine. -/
theorem forestSpineOK_lift (a : α) (cs : Forest α) (sp : List (Tree α))
    (c : HookCall α σ) (h : ForestSpineOK cs (sp ++ [Tree.node a cs]) c) :
    TreeSpineOK (Tree.node a cs) sp c := by
  obtain ⟨c', hc', p, hnode, hspine⟩ := h
  obtain ⟨i, hi⟩ := List.mem_iff_get?.mp hc'
  refine ⟨i :: p, ?_, ?_⟩
  · rw [nodeAt]
    have hch : Tree.children (Tree.node a cs) = cs := rfl
    rw [hch, hi]
    exact hnode
  · rw [ancestorsAlong]
    have hch : Tree.children (Tree.node a cs) = cs := rfl
    rw [hch, hi, hspine]
    simp

/-- Spine-correctness for the head child extends to the forest. -/
theorem treeSpineOK_head (c : Tree α) (rest : Forest α) (sp : List (Tree α))
    (x : HookCall α σ) (h : TreeSpineOK c sp x) :
    ForestSpineOK (.cons c rest) sp x :=
  ⟨c, by simp [Forest.toList], h⟩

/-- Spine-correctness for a tail forest extends to the whole forest. -/
theorem forestSpineOK_tail (c : Tree α) (rest : Forest α) (sp : List (Tree α))
    (x : HookCall α σ) (h : ForestSpineOK rest sp x) :
    ForestSpineOK (.cons c rest) sp x := by
  obtain ⟨c', hc', h2⟩ := h
  exact ⟨c', by simp [Forest.toList, hc'], h2⟩

/-- The effect of the after-children segment on a recording run. -/
theorem postPhase_record_spec (v : TreeVisitor α σ) (tnode : Tree α)
    (sp : List (Tree α)) (s2 : σ) (l2 : List (HookCall α σ)) :
    ∃ tail2,
      (postPhase (record v) tnode sp (s2, l2)).2 = l2 ++ tail2 ∧
      (postPhase (record v) tnode sp (s2, l2)).1 = postPhase v tnode sp s2 ∧
      ChainOK v s2 tail2 (postPhase v tnode sp s2) ∧
      (∀ c ∈ tail2, v.haltTraverse c.preState = false
        ∧ c = HookCall.post s2 tnode sp) := by
  by_cases hh2 : v.haltTraverse s2 = true
  · refine ⟨[], ?_, ?_, ?_, ?_⟩
    · rw [postPhase, if_pos (show (record v).haltTraverse (s2, l2) = true from hh2)]
      simp
    · rw [postPhase, if_pos (show (record v).haltTraverse (s2, l2) = true from hh2),
        postPhase, if_pos hh2]
    · rw [postPhase, if_pos hh2]; exact rfl
    · simp
  · simp only [Bool.not_eq_true] at hh2
    cases hq : v.postOrder with
    | none =>
      refine ⟨[], ?_, ?_, ?_, ?_⟩
      · rw [postPhase,
          if_neg (show ¬(record v).haltTraverse (s2, l2) = true by
            rw [record_halt, hh2]; simp),
          record_postOrder_none v hq]
        simp
      · rw [postPhase,
          if_neg (show ¬(record v).haltTraverse (s2, l2) = true by
            rw [record_halt, hh2]; simp),
          record_postOrder_none v hq, postPhase, if_neg (by rw [hh2]; simp), hq]
      · rw [postPhase, if_neg (by rw [hh2]; simp), hq]; exact rfl
      · simp
    | some g =>
      refine ⟨[HookCall.post s2 tnode sp], ?_, ?_, ?_, ?_⟩
      · rw [postPhase,
          if_neg (show ¬(record v).haltTraverse (s2, l2) = true by
            rw [record_halt, hh2]; simp),
          record_postOrder_some v g hq]
      · rw [postPhase,
          if_neg (show ¬(record v).haltTraverse (s2, l2) = true by
            rw [record_halt, hh2]; simp),
          record_postOrder_some v g hq, postPhase, if_neg (by rw [hh2]; simp), hq]
      · refine ⟨rfl, ?_⟩
        show postPhase v tnode sp s2 = hookResult v (HookCall.post s2 tnode sp)
        rw [postPhase, if_neg (by rw [hh2]; simp), hq, hookResult]
        simp [hq]
      · intro c hc
        simp only [List.mem_singleton] at hc
        subst hc
        exact ⟨hh2, rfl⟩

mutual
/-- Master lemma for `_traverse` on a subtree: the recording run extends the
log by a tail of hook calls that is chained from the entry state to the final
state, contains only calls whose entry state is not halted, is empty when the
visitor is halted on entry, and whose every call is spine-correct; the
underlying state component evolves exactly as the plain run. -/
theorem traverseAux_record_spec (v : TreeVisitor α σ) (t : Tree α) :
    ∀ (s : σ) (l : List (HookCall α σ)) (sp : List (Tree α)),
      ∃ tail,
        (traverseAux (record v) t (s, l) sp).2 = l ++ tail ∧
        (traverseAux (record v) t (s, l) sp).1 = traverseAux v t s sp ∧
        ChainOK v s tail (traverseAux v t s sp) ∧
        (∀ c ∈ tail, v.haltTraverse c.preState = false ∧ TreeSpineOK t sp c) ∧
        (v.haltTraverse s = true → tail = []) := by
  intro s l sp
  cases t with
  | node a cs =>
    by_cases hh : v.haltTraverse s = true
    · have hR := traverseAux_halted (record v) (Tree.node a cs) (s, l) sp
        (by rw [record_halt]; exact hh)
      have hP := traverseAux_halted v (Tree.node a cs) s sp hh
      refine ⟨[], by rw [hR]; simp, by rw [hR, hP], ?_, by simp, fun _ => rfl⟩
      rw [hP]
      exact rfl
    · simp only [Bool.not_eq_true] at hh
      cases hp : v.preOrder with
      | none =>
        have hpR := record_preOrder_none v hp
        have hRu := traverseAux_eq_no_pre (record v) a cs (s, l) sp
          (by rw [record_halt, hh]) hpR
        have hPu := traverseAux_eq_no_pre v a cs s sp hh hp
        obtain ⟨tailF, hF2, hF1, hFchain, hFprops, hFstart⟩ :=
          traverseForest_record_spec v cs s l (sp ++ [Tree.node a cs])
        have hpair : traverseForest (record v) cs (s, l) (sp ++ [Tree.node a cs])
            = (traverseForest v cs s (sp ++ [Tree.node a cs]), l ++ tailF) := by
          rw [← hF1, ← hF2]
        rw [hRu, hPu, hpair]
        obtain ⟨tail2, h22, h21, h2chain, h2props⟩ :=
          postPhase_record_spec v (Tree.node a cs) sp
            (traverseForest v cs s (sp ++ [Tree.node a cs])) (l ++ tailF)
        refine ⟨tailF ++ tail2, ?_, h21, ?_, ?_, by simp [hh]⟩
        · rw [h22, List.append_assoc]
        · exact chainOK_append v tailF s _ tail2 _ hFchain h2chain
        · intro c hc
          rcases List.mem_append.mp hc with hc | hc
          · exact ⟨(hFprops c hc).1, forestSpineOK_lift a cs sp c (hFprops c hc).2⟩
          · obtain ⟨hhalt, hceq⟩ := h2props c hc
            subst hceq
            exact ⟨hhalt, treeSpineOK_post_self _ _ _⟩
      | some f =>
        have hpR := record_preOrder_some v f hp
        have hhr : hookResult v (HookCall.pre s (Tree.node a cs) sp)
            = (f s (Tree.node a cs) sp).1 := by
          rw [hookResult]; simp [hp]
        by_cases hh1 : v.haltTraverse (f s (Tree.node a cs) sp).1 = true
        · have hR := traverseAux_eq_pre_halt (record v) _ a cs (s, l) sp
            (by rw [record_halt, hh]) hpR hh1
          have hconv : traverseAux (record v) (Tree.node a cs) (s, l) sp
              = ((f s (Tree.node a cs) sp).1,
                  l ++ [HookCall.pre s (Tree.node a cs) sp]) := hR
          have hP := traverseAux_eq_pre_halt v f a cs s sp hh hp hh1
          rw [hconv, hP]
          refine ⟨[HookCall.pre s (Tree.node a cs) sp], rfl, rfl, ?_, ?_, by simp [hh]⟩
          · refine ⟨rfl, ?_⟩
            show (f s (Tree.node a cs) sp).1
              = hookResult v (HookCall.pre s (Tree.node a cs) sp)
            rw [hhr]
          · intro c hc
            simp only [List.mem_singleton] at hc
            subst hc
            exact ⟨hh, treeSpineOK_pre_self _ _ _⟩
        · simp only [Bool.not_eq_true] at hh1
          cases hd : (f s (Tree.node a cs) sp).2 with
          | true =>
            have hR := traverseAux_eq_pre_descend (record v) _ a cs (s, l) sp
              (by rw [record_halt, hh]) hpR hh1 hd
            have hconv : traverseAux (record v) (Tree.node a cs) (s, l) sp
                = postPhase (record v) (Tree.node a cs) sp
                    (traverseForest (record v) cs
                      ((f s (Tree.node a cs) sp).1,
                        l ++ [HookCall.pre s (Tree.node a cs) sp])
                      (sp ++ [Tree.node a cs])) := hR
            have hP := traverseAux_eq_pre_descend v f a cs s sp hh hp hh1 hd
            obtain ⟨tailF, hF2, hF1, hFchain, hFprops, hFstart⟩ :=
              traverseForest_record_spec v cs (f s (Tree.node a cs) sp).1
                (l ++ [HookCall.pre s (Tree.node a cs) sp]) (sp ++ [Tree.node a cs])
            have hpair : traverseForest (record v) cs
                ((f s (Tree.node a cs) sp).1,
                  l ++ [HookCall.pre s (Tree.node a cs) sp]) (sp ++ [Tree.node a cs])
                = (traverseForest v cs (f s (Tree.node a cs) sp).1
                    (sp ++ [Tree.node a cs]),
                   (l ++ [HookCall.pre s (Tree.node a cs) sp]) ++ tailF) := by
              rw [← hF1, ← hF2]
            rw [hconv, hP, hpair]
            obtain ⟨tail2, h22, h21, h2chain, h2props⟩ :=
              postPhase_record_spec v (Tree.node a cs) sp
                (traverseForest v cs (f s (Tree.node a cs) sp).1
                  (sp ++ [Tree.node a cs]))
                ((l ++ [HookCall.pre s (Tree.node a cs) sp]) ++ tailF)
            refine ⟨HookCall.pre s (Tree.node a cs) sp :: (tailF ++ tail2),
              ?_, h21, ?_, ?_, by simp [hh]⟩
            · rw [h22]; simp
            · refine ⟨rfl, ?_⟩
              rw [hhr]
              exact chainOK_append v tailF _ _ tail2 _ hFchain h2chain
            · intro c hc
              rcases List.mem_cons.mp hc with hc | hc
              · subst hc
                exact ⟨hh, treeSpineOK_pre_self _ _ _⟩
              rcases List.mem_append.mp hc with hc | hc
              · exact ⟨(hFprops c hc).1, forestSpineOK_lift a cs sp c (hFprops c hc).2⟩
              · obtain ⟨hhalt, hceq⟩ := h2props c hc
                subst hceq
                exact ⟨hhalt, treeSpineOK_post_self _ _ _⟩
          | false =>
            have hR := traverseAux_eq_pre_skip (record v) _ a cs (s, l) sp
              (by rw [record_halt, hh]) hpR hh1 hd
            have hconv : traverseAux (record v) (Tree.node a cs) (s, l) sp
                = postPhase (record v) (Tree.node a cs) sp
                    ((f s (Tree.node a cs) sp).1,
                      l ++ [HookCall.pre s (Tree.node a cs) sp]) := hR
            have hP := traverseAux_eq_pre_skip v f a cs s sp hh hp hh1 hd
            rw [hconv, hP]
            obtain ⟨tail2, h22, h21, h2chain, h2props⟩ :=
              postPhase_record_spec v (Tree.node a cs) sp
                (f s (Tree.node a cs) sp).1
                (l ++ [HookCall.pre s (Tree.node a cs) sp])
            refine ⟨HookCall.pre s (Tree.node a cs) sp :: tail2,
              ?_, h21, ?_, ?_, by simp [hh]⟩
            · rw [h22]; simp
            · refine ⟨rfl, ?_⟩
              rw [hhr]
              exact h2chain
            · intro c hc
              rcases List.mem_cons.mp hc with hc | hc
              · subst hc
                exact ⟨hh, treeSpineOK_pre_self _ _ _⟩
              · obtain ⟨hhalt, hceq⟩ := h2props c hc
                subst hceq
                exact ⟨hhalt, treeSpineOK_post_self _ _ _⟩

/-- Master lemma for the children loop, mirroring
`traverseAux_record_spec`. -/
theorem traverseForest_record_spec (v : TreeVisitor α σ) (f : Forest α) :
    ∀ (s : σ) (l : List (HookCall α σ)) (sp : List (Tree α)),
      ∃ tail,
        (traverseForest (record v) f (s, l) sp).2 = l ++ tail ∧
        (traverseForest (record v) f (s, l) sp).1 = traverseForest v f s sp ∧
        ChainOK v s tail (traverseForest v f s sp) ∧
        (∀ c ∈ tail, v.haltTraverse c.preState = false ∧ ForestSpineOK f sp c) ∧
        (v.haltTraverse s = true → tail = []) := by
  intro s l sp
  cases f with
  | nil =>
    rw [traverseForest_nil, traverseForest_nil]
    refine ⟨[], by simp, rfl, ?_, by simp, fun _ => rfl⟩
    exact rfl
  | cons c rest =>
    rw [traverseForest_cons (record v) c rest (s, l) sp,
      traverseForest_cons v c rest s sp]
    obtain ⟨tailT, hT2, hT1, hTchain, hTprops, hTstart⟩ :=
      traverseAux_record_spec v c s l sp
    have hpairT : traverseAux (record v) c (s, l) sp
        = (traverseAux v c s sp, l ++ tailT) := by
      rw [← hT1, ← hT2]
    rw [hpairT]
    by_cases hh' : v.haltTraverse (traverseAux v c s sp) = true
    · rw [if_pos (show (record v).haltTraverse (traverseAux v c s sp, l ++ tailT)
          = true from hh'), if_pos hh']
      refine ⟨tailT, rfl, rfl, hTchain, ?_, hTstart⟩
      intro x hx
      exact ⟨(hTprops x hx).1, treeSpineOK_head c rest sp x (hTprops x hx).2⟩
    · have hh'f : v.haltTraverse (traverseAux v c s sp) = false := by
        simpa using hh'
      rw [if_neg (show ¬(record v).haltTraverse (traverseAux v c s sp, l ++ tailT)
          = true from hh'), if_neg hh']
      obtain ⟨tailF, hF2, hF1, hFchain, hFprops, hFstart⟩ :=
        traverseForest_record_spec v rest (traverseAux v c s sp) (l ++ tailT) sp
      refine ⟨tailT ++ tailF, ?_, hF1, ?_, ?_, ?_⟩
      · rw [hF2]; simp
      · exact chainOK_append v tailT s _ tailF _ hTchain hFchain
      · intro x hx
        rcases List.mem_append.mp hx with hx | hx
        · exact ⟨(hTprops x hx).1, treeSpineOK_head c rest sp x (hTprops x hx).2⟩
        · exact ⟨(hFprops x hx).1, forestSpineOK_tail c rest sp x (hFprops x hx).2⟩
      · intro hs
        exfalso
        have heq := traverseAux_halted v c s sp hs
        rw [heq, hs] at hh'f
        cases hh'f
end

/-- C3 (amended): for every visitor and every traverser with a nonempty spine
(ending in the start node `t`), the spine passed to each `preOrder` and
`postOrder` hook invocation equals the traverser's spine at the start of the
traversal — which already ends with the start node — extended by the ordered
ancestors of the visited node strictly within the traversed subtree (the path
from the start node down to the visited node's parent).  It therefore exceeds
the ordered root-downward ancestor sequence of the visited node by one
duplicated occurrence of the start node, rather than equalling it. -/
theorem c3_spine_is_initial_plus_descent (v : TreeVisitor α σ) (sp : List (Tree α))
    (t : Tree α) (s : σ) (h : sp.getLast? = some t) :
    ∀ c ∈ (TreeTraverser.traverse (record v) sp (s, [])).2,
      ∃ p, nodeAt p t = some c.node ∧ c.spine = sp ++ ancestorsAlong p t := by
  have htr : TreeTraverser.traverse (record v) sp (s, [])
      = traverseAux (record v) t (s, []) sp := by
    rw [TreeTraverser.traverse, h]
  intro c hc
  rw [htr] at hc
  obtain ⟨tail, h2, _, _, hprops, _⟩ := traverseAux_record_spec v t s [] sp
  rw [h2] at hc
  simp only [List.nil_append] at hc
  exact (hprops c hc).2

/-- C3 witness: the amended theorem applied to the one-node tree, the
traverser spine `[tZero]` and the first recorded hook call, which received
spine `[tZero]`. -/
theorem c3_spine_is_initial_plus_descent_witness :
    ∃ p, nodeAt p tZero = some (HookCall.pre () tZero [tZero] : HookCall Nat Unit).node ∧
      (HookCall.pre () tZero [tZero] : HookCall Nat Unit).spine
        = [tZero] ++ ancestorsAlong p tZero :=
  c3_spine_is_initial_plus_descent (unitVisitor Nat) [tZero] tZero () rfl
    (HookCall.pre () tZero [tZero])
    (by
      have htr : (TreeTraverser.traverse (record (unitVisitor Nat)) [tZero] ((), [])).2
          = [HookCall.pre () tZero [tZero], HookCall.post () tZero [tZero]] := rfl
      rw [htr]
      exact List.mem_cons_self _ _)

/-- C3 counterexample: a traverser over the one-node tree `tZero` with spine
`[tZero]`.  Both hook invocations receive the spine `[tZero]`, but the
ordered sequence of ancestors of the visited node `tZero` (the root) is `[]`:
the spine passed to the hooks is not the ancestor sequence. -/
theorem c3_counterexample :
    (TreeTraverser.traverse (record (unitVisitor Nat)) [tZero] ((), [])).2.map
        HookCall.spine
      = [[tZero], [tZero]] ∧
      (TreeTraverser.traverse (record (unitVisitor Nat)) [tZero] ((), [])).2.map
        HookCall.node
      = [tZero, tZero] ∧
      ancestorsAlong [] tZero = ([] : List (Tree Nat)) ∧
      nodeAt [] tZero = some tZero ∧
      [tZero] ≠ ([] : List (Tree Nat)) := by
  refine ⟨rfl, rfl, rfl, rfl, by simp⟩

/-- C4: once the halt flag is set, the traversal stops.  If the visitor is
halted before the traversal starts, no hook fires and the state is returned
unchanged; and whenever the state produced by some recorded hook call is
halted, that call is the last one of the whole trace — no later `preOrder` or
`postOrder` hook fires on any node and no further sibling subtree contributes
a hook call. -/
theorem c4_halt_stops_hooks (v : TreeVisitor α σ) (sp : List (Tree α))
    (t : Tree α) (s : σ) (h : sp.getLast? = some t) :
    (v.haltTraverse s = true → TreeTraverser.traverse (record v) sp (s, []) = (s, [])) ∧
      (∀ l1 c l2,
        (TreeTraverser.traverse (record v) sp (s, [])).2 = l1 ++ c :: l2 →
        v.haltTraverse (hookResult v c) = true → l2 = []) := by
  have htr : TreeTraverser.traverse (record v) sp (s, [])
      = traverseAux (record v) t (s, []) sp := by
    rw [TreeTraverser.traverse, h]
  obtain ⟨tail, h2, h1, hchain, hprops, hstart⟩ := traverseAux_record_spec v t s [] sp
  constructor
  · intro hs
    rw [htr]
    have ht0 : tail = [] := hstart hs
    have hp1 : (traverseAux (record v) t (s, []) sp).1 = s := by
      rw [h1, traverseAux_halted v t s sp hs]
    have hp2 : (traverseAux (record v) t (s, []) sp).2 = [] := by
      rw [h2, ht0]; rfl
    calc traverseAux (record v) t (s, []) sp
        = ((traverseAux (record v) t (s, []) sp).1,
            (traverseAux (record v) t (s, []) sp).2) := rfl
      _ = (s, []) := by rw [hp1, hp2]
  · intro l1 c l2 hsplit hhr
    rw [htr, h2] at hsplit
    simp only [List.nil_append] at hsplit
    cases l2 with
    | nil => rfl
    | cons c' l2' =>
      exfalso
      rw [hsplit] at hchain
      obtain ⟨m, hc1, hc2, _⟩ := chainOK_decomp v l1 s (c :: c' :: l2') _ hchain
      have hmem : c' ∈ tail := by rw [hsplit]; simp
      have hfalse := (hprops c' hmem).1
      rw [hc2, hhr] at hfalse
      exact Bool.noConfusion hfalse

/-- C4 witness: a visitor halted before the traversal starts fires no hook
and the traversal is the identity on the state. -/
theorem c4_halt_stops_hooks_witness :
    TreeTraverser.traverse (record (haltingVisitor Nat)) [tZero] (true, []) = (true, []) :=
  (c4_halt_stops_hooks (haltingVisitor Nat) [tZero] tZero true rfl).1 rfl

/-! ## FindVisitor characterisation -/

/-- `takeToMatch` over a match-free list is the identity. -/
theorem takeToMatch_all_false {β : Type} (pred : β → Bool) :
    ∀ (A : List β), A.any pred = false → takeToMatch pred A = A := by
  intro A
  induction A with
  | nil => intro _; rfl
  | cons x xs ih =>
    intro h
    simp only [List.any_cons, Bool.or_eq_false_iff] at h
    rw [takeToMatch, if_neg (by rw [h.1]; simp), ih h.2]

/-- `takeToMatch` over an append stops in the left part exactly when the left
part holds a match. -/
theorem takeToMatch_append {β : Type} (pred : β → Bool) :
    ∀ (A B : List β),
      takeToMatch pred (A ++ B)
        = if A.any pred then takeToMatch pred A else A ++ takeToMatch pred B := by
  intro A
  induction A with
  | nil => intro B; simp
  | cons x xs ih =>
    intro B
    by_cases hx : pred x = true
    · rw [List.cons_append, takeToMatch, if_pos hx]
      simp [hx, takeToMatch]
    · have hxf : pred x = false := by simpa using hx
      rw [List.cons_append, takeToMatch, if_neg hx, ih]
      by_cases hxs : xs.any pred = true
      · simp [hxf, hxs, takeToMatch]
      · have hxsf : xs.any pred = false := by simpa using hxs
        simp [hxf, hxsf, takeToMatch]

mutual
/-- A subtree holds a `findSpine` path exactly when its preorder listing
holds a match. -/
theorem findSpine_isSome (pred : Tree α → Bool) (t : Tree α) :
    (findSpine pred t).isSome = (preorderList t).any pred := by
  cases t with
  | node a cs =>
    rw [findSpine, preorderList]
    by_cases hp : pred (Tree.node a cs) = true
    · simp [hp]
    · have hpf : pred (Tree.node a cs) = false := by simpa using hp
      simp [hpf, findSpineF_isSome pred cs]

/-- Forest version of `findSpine_isSome`. -/
theorem findSpineF_isSome (pred : Tree α → Bool) (f : Forest α) :
    (findSpineF pred f).isSome = (preorderForest f).any pred := by
  cases f with
  | nil => rfl
  | cons c rest =>
    rw [findSpineF, preorderForest]
    cases hc : findSpine pred c with
    | none =>
      have h1 := findSpine_isSome pred c
      rw [hc] at h1
      simp [← h1, findSpineF_isSome pred rest]
    | some fs =>
      have h1 := findSpine_isSome pred c
      rw [hc] at h1
      simp [← h1]
end

mutual
/-- A found `findSpine` path is never empty. -/
theorem findSpine_ne_nil (pred : Tree α → Bool) (t : Tree α)
    (fs : List (Tree α)) (h : findSpine pred t = some fs) : fs ≠ [] := by
  cases t with
  | node a cs =>
    rw [findSpine] at h
    by_cases hp : pred (Tree.node a cs) = true
    · rw [if_pos hp] at h
      simp only [Option.some.injEq] at h
      rw [← h]
      simp
    · rw [if_neg hp] at h
      obtain ⟨l2, _, h2⟩ := Option.map_eq_some'.mp h
      rw [← h2]
      simp

/-- Forest version of `findSpine_ne_nil`. -/
theorem findSpineF_ne_nil (pred : Tree α → Bool) (f : Forest α)
    (fs : List (Tree α)) (h : findSpineF pred f = some fs) : fs ≠ [] := by
  cases f with
  | nil => simp [findSpineF] at h
  | cons c rest =>
    rw [findSpineF] at h
    cases hc : findSpine pred c with
    | none =>
      rw [hc] at h
      exact findSpineF_ne_nil pred rest fs h
    | some l2 =>
      rw [hc] at h
      simp only [Option.some.injEq] at h
      rw [← h]
      exact findSpine_ne_nil pred c l2 hc
end

mutual
/-- The last node of the `findSpine` path is exactly the first match of the
depth-first preorder listing. -/
theorem findSpine_getLast (pred : Tree α → Bool) (t : Tree α) :
    (findSpine pred t).bind List.getLast? = (preorderList t).find? pred := by
  cases t with
  | node a cs =>
    rw [findSpine, preorderList]
    by_cases hp : pred (Tree.node a cs) = true
    · rw [if_pos hp, List.find?_cons_of_pos _ hp]
      rfl
    · rw [if_neg hp, List.find?_cons_of_neg _ hp]
      cases hf : findSpineF pred cs with
      | none =>
        have h1 := findSpineF_getLast pred cs
        rw [hf] at h1
        simpa using h1
      | some l2 =>
        have h1 := findSpineF_getLast pred cs
        rw [hf] at h1
        have hnn := findSpineF_ne_nil pred cs l2 hf
        obtain ⟨y, ys, rfl⟩ : ∃ y ys, l2 = y :: ys := by
          cases l2 with
          | nil => exact absurd rfl hnn
          | cons y ys => exact ⟨y, ys, rfl⟩
        simp only [Option.map_some', Option.some_bind] at h1 ⊢
        rw [List.getLast?_cons_cons]
        exact h1

/-- Forest version of `findSpine_getLast`. -/
theorem findSpineF_getLast (pred : Tree α → Bool) (f : Forest α) :
    (findSpineF pred f).bind List.getLast? = (preorderForest f).find? pred := by
  cases f with
  | nil => rfl
  | cons c rest =>
    rw [findSpineF, preorderForest, List.find?_append]
    cases hc : findSpine pred c with
    | none =>
      have h1 := findSpine_getLast pred c
      rw [hc] at h1
      rw [← h1]
      simpa using findSpineF_getLast pred rest
    | some l2 =>
      have h1 := findSpine_getLast pred c
      rw [hc] at h1
      rw [← h1]
      have hnn := findSpine_ne_nil pred c l2 hc
      obtain ⟨y, ys, rfl⟩ : ∃ y ys, l2 = y :: ys := by
        cases l2 with
        | nil => exact absurd rfl hnn
        | cons y ys => exact ⟨y, ys, rfl⟩
      simp only [Option.some_bind]
      obtain ⟨z, hz⟩ : ∃ z, (y :: ys).getLast? = some z := by
        cases hl : (y :: ys).getLast? with
        | none => simp [List.getLast?_eq_none_iff] at hl
        | some z => exact ⟨z, rfl⟩
      rw [hz]
      rfl
end

/-- A `FindVisitor` run over a node whose predicate matches: record the spine
with the node pushed, set the halt flag, log the one `preOrder` call. -/
theorem findRecord_match (pred : Tree α → Bool) (a : α) (cs : Forest α)
    (l : List (HookCall α (FindState α))) (sp : List (Tree α))
    (hpred : pred (Tree.node a cs) = true) :
    traverseAux (record (findVisitor pred)) (.node a cs)
        (({ found := none, haltTraverse := false } : FindState α), l) sp
      = ({ found := some (sp ++ [Tree.node a cs]), haltTraverse := true },
         l ++ [HookCall.pre { found := none, haltTraverse := false }
                (Tree.node a cs) sp]) := by
  rw [traverseAux]
  simp [record, findVisitor, hpred]

/-- A `FindVisitor` run over a node whose predicate does not match descends
into the children with the node pushed onto the spine. -/
theorem findRecord_descend (pred : Tree α → Bool) (a : α) (cs : Forest α)
    (l : List (HookCall α (FindState α))) (sp : List (Tree α))
    (hpred : pred (Tree.node a cs) = false) :
    traverseAux (record (findVisitor pred)) (.node a cs)
        (({ found := none, haltTraverse := false } : FindState α), l) sp
      = traverseForest (record (findVisitor pred)) cs
          (({ found := none, haltTraverse := false } : FindState α),
            l ++ [HookCall.pre { found := none, haltTraverse := false }
                   (Tree.node a cs) sp])
          (sp ++ [Tree.node a cs]) := by
  rw [traverseAux]
  simp [record, findVisitor, hpred]

mutual
/-- Characterisation of a recorded `FindVisitor` run over a subtree: the
final state carries `findSpine` (prefixed by the initial spine) and the halt
flag exactly when a match exists, and the hooks fire exactly on the preorder
prefix of the subtree up to and including the first match. -/
theorem findAux_record_spec (pred : Tree α → Bool) (t : Tree α) :
    ∀ (l : List (HookCall α (FindState α))) (sp : List (Tree α)),
      ((traverseAux (record (findVisitor pred)) t
          (({ found := none, haltTraverse := false } : FindState α), l) sp).1
        = (match findSpine pred t with
           | some fs => { found := some (sp ++ fs), haltTraverse := true }
           | none => { found := none, haltTraverse := false })) ∧
      ∃ tail,
        (traverseAux (record (findVisitor pred)) t
          (({ found := none, haltTraverse := false } : FindState α), l) sp).2
            = l ++ tail ∧
        tail.map HookCall.node = takeToMatch pred (preorderList t) := by
  intro l sp
  cases t with
  | node a cs =>
    by_cases hpred : pred (Tree.node a cs) = true
    · rw [findRecord_match pred a cs l sp hpred]
      constructor
      · simp [findSpine, hpred]
      · refine ⟨[HookCall.pre { found := none, haltTraverse := false }
          (Tree.node a cs) sp], rfl, ?_⟩
        simp [takeToMatch, preorderList, hpred, HookCall.node]
    · have hpredf : pred (Tree.node a cs) = false := by simpa using hpred
      rw [findRecord_descend pred a cs l sp hpredf]
      obtain ⟨hstate, tailF, htrace, hmapF⟩ :=
        findForest_record_spec pred cs
          (l ++ [HookCall.pre { found := none, haltTraverse := false }
            (Tree.node a cs) sp])
          (sp ++ [Tree.node a cs])
      constructor
      · rw [hstate]
        cases hf : findSpineF pred cs with
        | none => simp [findSpine, hpredf, hf]
        | some fs => simp [findSpine, hpredf, hf]
      · refine ⟨HookCall.pre { found := none, haltTraverse := false }
          (Tree.node a cs) sp :: tailF, ?_, ?_⟩
        · rw [htrace]; simp
        · simp only [List.map_cons, hmapF]
          simp [preorderList, takeToMatch, hpredf, HookCall.node]

/-- Forest version of `findAux_record_spec`. -/
theorem findForest_record_spec (pred : Tree α → Bool) (f : Forest α) :
    ∀ (l : List (HookCall α (FindState α))) (sp : List (Tree α)),
      ((traverseForest (record (findVisitor pred)) f
          (({ found := none, haltTraverse := false } : FindState α), l) sp).1
        = (match findSpineF pred f with
           | some fs => { found := some (sp ++ fs), haltTraverse := true }
           | none => { found := none, haltTraverse := false })) ∧
      ∃ tail,
        (traverseForest (record (findVisitor pred)) f
          (({ found := none, haltTraverse := false } : FindState α), l) sp).2
            = l ++ tail ∧
        tail.map HookCall.node = takeToMatch pred (preorderForest f) := by
  intro l sp
  cases f with
  | nil =>
    rw [traverseForest_nil]
    exact ⟨rfl, ⟨[], by simp, by simp [preorderForest, takeToMatch]⟩⟩
  | cons c rest =>
    rw [traverseForest_cons]
    obtain ⟨hstateT, tailT, htraceT, hmapT⟩ := findAux_record_spec pred c l sp
    cases hc : findSpine pred c with
    | some fs =>
      rw [hc] at hstateT
      have hpair : traverseAux (record (findVisitor pred)) c
          (({ found := none, haltTraverse := false } : FindState α), l) sp
          = ({ found := some (sp ++ fs), haltTraverse := true }, l ++ tailT) := by
        have hsplit : traverseAux (record (findVisitor pred)) c
            (({ found := none, haltTraverse := false } : FindState α), l) sp
            = ((traverseAux (record (findVisitor pred)) c
                (({ found := none, haltTraverse := false } : FindState α), l) sp).1,
               (traverseAux (record (findVisitor pred)) c
                (({ found := none, haltTraverse := false } : FindState α), l) sp).2) := rfl
        rw [hsplit, hstateT, htraceT]
      rw [hpair,
        if_pos (show (record (findVisitor pred)).haltTraverse
          ({ found := some (sp ++ fs), haltTraverse := true }, l ++ tailT) = true from rfl)]
      constructor
      · simp [findSpineF, hc]
      · refine ⟨tailT, rfl, ?_⟩
        rw [hmapT, preorderForest, takeToMatch_append]
        have hany : (preorderList c).any pred = true := by
          rw [← findSpine_isSome pred c, hc]
          rfl
        rw [if_pos hany]
    | none =>
      rw [hc] at hstateT
      have hpair : traverseAux (record (findVisitor pred)) c
          (({ found := none, haltTraverse := false } : FindState α), l) sp
          = ({ found := none, haltTraverse := false }, l ++ tailT) := by
        have hsplit : traverseAux (record (findVisitor pred)) c
            (({ found := none, haltTraverse := false } : FindState α), l) sp
            = ((traverseAux (record (findVisitor pred)) c
                (({ found := none, haltTraverse := false } : FindState α), l) sp).1,
               (traverseAux (record (findVisitor pred)) c
                (({ found := none, haltTraverse := false } : FindState α), l) sp).2) := rfl
        rw [hsplit, hstateT, htraceT]
      rw [hpair,
        if_neg (show ¬(record (findVisitor pred)).haltTraverse
          (({ found := none, haltTraverse := false } : FindState α), l ++ tailT)
            = true by simp [record, findVisitor])]
      obtain ⟨hstateR, tailR, htraceR, hmapR⟩ :=
        findForest_record_spec pred rest (l ++ tailT) sp
      constructor
      · rw [hstateR]
        simp [findSpineF, hc]
      · refine ⟨tailT ++ tailR, ?_, ?_⟩
        · rw [htraceR]; simp
        · rw [List.map_append, hmapT, hmapR, preorderForest, takeToMatch_append]
          have hany : (preorderList c).any pred = false := by
            rw [← findSpine_isSome pred c, hc]
            rfl
          rw [if_neg (by rw [hany]; simp), takeToMatch_all_false pred _ hany]
end

/-- C10 (amended): for a traverser with a nonempty spine ending in the start
node `t`, `find` returns the first node of the depth-first preorder of the
subtree of `t` that satisfies the predicate; it replaces the traverser's
spine with its previous spine — which already ends with the start node —
extended by the path from the start node down to the match inclusive (so the
start node is duplicated, rather than the spine being exactly the
root-to-match path); the predicate hooks evaluate exactly the preorder prefix
up to and including the first match, visiting no node afterwards.  With no
match, `find` returns `null` and the spine is unchanged. -/
theorem c10_find_first_preorder_match (pred : Tree α → Bool) (sp : List (Tree α))
    (t : Tree α) (h : sp.getLast? = some t) :
    (∀ fs, findSpine pred t = some fs →
        TreeTraverser.find pred sp = ((preorderList t).find? pred, sp ++ fs)) ∧
      (findSpine pred t = none → TreeTraverser.find pred sp = (none, sp)) ∧
      ((preorderList t).find? pred = (findSpine pred t).bind List.getLast?) ∧
      ((traverseAux (record (findVisitor pred)) t
          (({ found := none, haltTraverse := false } : FindState α), []) sp).2.map
          HookCall.node
        = takeToMatch pred (preorderList t)) := by
  have hfind : TreeTraverser.find pred sp
      = (match (traverseAux (findVisitor pred) t
            { found := none, haltTraverse := false } sp).found with
         | some fs => (fs.getLast?, fs)
         | none => (none, sp)) := by
    rw [TreeTraverser.find, h]
  obtain ⟨tail, _, hproj, _, _, _⟩ :=
    traverseAux_record_spec (findVisitor pred) t
      { found := none, haltTraverse := false } [] sp
  obtain ⟨hstate, tailT, htrace, hmap⟩ := findAux_record_spec pred t [] sp
  have hplain : traverseAux (findVisitor pred) t
      { found := none, haltTraverse := false } sp
      = (match findSpine pred t with
         | some fs =>
            ({ found := some (sp ++ fs), haltTraverse := true } : FindState α)
         | none => { found := none, haltTraverse := false }) := by
    rw [← hproj, hstate]
  refine ⟨?_, ?_, (findSpine_getLast pred t).symm, ?_⟩
  · intro fs hfs
    rw [hfind, hplain, hfs]
    have hnn := findSpine_ne_nil pred t fs hfs
    show ((sp ++ fs).getLast?, sp ++ fs) = _
    rw [List.getLast?_append_of_ne_nil sp hnn]
    have hlast : fs.getLast? = (preorderList t).find? pred := by
      have h1 := findSpine_getLast pred t
      rw [hfs] at h1
      simpa using h1
    rw [hlast]
  · intro hnone
    rw [hfind, hplain, hnone]
  · rw [htrace, List.nil_append]
    exact hmap

/-- C10 witness: on the one-node tree with the always-true predicate, `find`
returns the first preorder match and the spine becomes the old spine plus the
path to the match (the root duplicated). -/
theorem c10_find_first_preorder_match_witness :
    TreeTraverser.find (fun _ => true) [tZero]
      = ((preorderList tZero).find? (fun _ => true), [tZero] ++ [tZero]) :=
  ((c10_find_first_preorder_match (fun _ => true) [tZero] tZero rfl).1) [tZero] rfl

/-- C10 counterexample: on the one-node tree with the always-true predicate,
`find` returns the root but replaces the traverser's spine with
`[tZero, tZero]`, which is not the root-to-match path `[tZero]`. -/
theorem c10_counterexample :
    TreeTraverser.find (fun _ => true) [tZero] = (some tZero, [tZero, tZero]) ∧
      [tZero, tZero] ≠ [tZero] := by
  refine ⟨rfl, by simp⟩

/-! ## Event bus -/

/-- Helper for the trigger loop: when the loop terminates, the invoked
sequence is exactly the final live subscriber list, and the initial
subscriber list is a prefix of it. -/
theorem Event.triggerLoop_spec {H : Type} (behavior : H → List H) :
    ∀ (fuel n : Nat) (st final : EvState H),
      Event.triggerLoop behavior fuel n st = some final →
      st.invoked.length = n →
      st.invoked = st.subscribed.take n →
      final.invoked = final.subscribed ∧
        final.subscribed.take st.subscribed.length = st.subscribed := by
  intro fuel
  induction fuel with
  | zero => intro n st final h; simp [Event.triggerLoop] at h
  | succ fuel ih =>
    intro n st final h hlen htake
    rw [Event.triggerLoop] at h
    by_cases hn : n < st.subscribed.length
    · simp only [hn, dif_pos] at h
      have h2 := ih (n + 1) _ final h
        (by simp [hlen])
        (by
          have h3 : (st.subscribed ++ behavior (st.subscribed.get ⟨n, hn⟩)).take (n + 1)
              = st.subscribed.take (n + 1) := by
            apply List.take_append_of_le_length
            omega
          rw [h3, List.take_succ, List.getElem?_eq_getElem hn]
          simp [htake])
      obtain ⟨hinv, hpre⟩ := h2
      refine ⟨hinv, ?_⟩
      have hle : st.subscribed.length
          ≤ (st.subscribed ++ behavior (st.subscribed.get ⟨n, hn⟩)).length := by
        simp
      calc final.subscribed.take st.subscribed.length
          = (final.subscribed.take (st.subscribed
              ++ behavior (st.subscribed.get ⟨n, hn⟩)).length).take st.subscribed.length := by
            rw [List.take_take]; congr 1; omega
        _ = ((st.subscribed ++ behavior (st.subscribed.get ⟨n, hn⟩))).take
              st.subscribed.length := by rw [hpre]
        _ = st.subscribed := by
            rw [List.take_append_of_le_length (le_refl _), List.take_length]
    · simp only [hn, dif_neg, not_false_iff, Option.some.injEq] at h
      subst h
      constructor
      · rw [htake, List.take_of_length_le]; omega
      · exact List.take_length _

/-- C6 (amended): handlers subscribed during an in-flight `trigger` ARE
invoked by that same call.  `trigger` re-reads the live subscriber list on
every iteration, so when the loop terminates the sequence of invoked handlers
is exactly the final subscriber list — the handlers present at the start
(which form a prefix of it) followed by every handler appended during the
call. -/
theorem c6_trigger_reads_live_list {H : Type} (behavior : H → List H)
    (subscribed : List H) (fuel : Nat) (final : EvState H)
    (h : Event.trigger behavior fuel subscribed = some final) :
    final.invoked = final.subscribed ∧
      final.subscribed.take subscribed.length = subscribed :=
  Event.triggerLoop_spec behavior fuel 0 _ final h rfl rfl

/-- C6 witness: triggering `[0]` under `subscriberBehavior` terminates with
subscriber list `[0, 1]`, and the amended theorem applies to it. -/
theorem c6_trigger_reads_live_list_witness :
    ({ subscribed := [0, 1], invoked := [0, 1] } : EvState Nat).invoked
        = ({ subscribed := [0, 1], invoked := [0, 1] } : EvState Nat).subscribed ∧
      ({ subscribed := [0, 1], invoked := [0, 1] } : EvState Nat).subscribed.take
          ([0] : List Nat).length = [0] :=
  c6_trigger_reads_live_list subscriberBehavior [0] 3
    { subscribed := [0, 1], invoked := [0, 1] } rfl

/-- C6 counterexample: handler `1` is subscribed by handler `0` during the
trigger of `[0]`, is not subscribed when the trigger begins, and yet is
invoked by that same trigger — refuting the claim that newly subscribed
handlers do not fire for in-flight triggers. -/
theorem c6_counterexample :
    Event.trigger subscriberBehavior 3 [0]
        = some { subscribed := [0, 1], invoked := [0, 1] } ∧
      (1 : Nat) ∉ ([0] : List Nat) ∧
      (1 : Nat) ∈ ({ subscribed := [0, 1], invoked := [0, 1] } : EvState Nat).invoked := by
  refine ⟨rfl, by decide, by decide⟩

/-- C2: the failing input from the spec's own design note, evaluated on the
code.  Subscribe handlers `1` then `2`; run handler `1`'s unsubscribe token,
then handler `2`'s.  The second token splices at the stale captured index 1
of the now one-element list, removing nothing: handler `2` stays subscribed
and a subsequent `trigger` still invokes it, although the claim says the
token removes exactly handler `2`. -/
theorem c2_unsubscribe_stale_index :
    (Event.subscribe 1 ([] : List Nat)).2 = 0 ∧
      (Event.subscribe 2 (Event.subscribe 1 ([] : List Nat)).1).2 = 1 ∧
      Event.unsubscribe 1
          (Event.unsubscribe 0
            (Event.subscribe 2 (Event.subscribe 1 ([] : List Nat)).1).1)
        = [2] ∧
      Event.trigger (fun _ => []) 2 [2]
        = some { subscribed := [2], invoked := [2] } := by
  exact ⟨rfl, rfl, rfl, rfl⟩

/-! ## Debounce -/

/-- A `handle` call on a debouncer whose pending timer (if any) lies strictly
in the future cancels it unfired and schedules the new event `_wait` after
`now`. -/
theorem Debounce.handle_fresh {E : Type} (t : Nat) (e : E) (d : Debounce E)
    (h : ∀ tf ev, d.timer = some (tf, ev) → t < tf) :
    Debounce.handle t e d
      = { d with timer := some (t + d._wait, e), lastEvent := some e } := by
  cases htimer : d.timer with
  | none => simp [Debounce.handle, Debounce.fireDue, Debounce.clear, htimer]
  | some p =>
    have hlt := h p.1 p.2 (by rw [htimer])
    simp [Debounce.handle, Debounce.fireDue, Debounce.clear, htimer,
      Nat.not_le.mpr hlt]

/-- Running a `handle` sequence whose gaps are all below the wait time, on a
debouncer whose pending timer (if any) is still in the future at the first
call, fires nothing; it leaves exactly the timer of the last call pending. -/
theorem Debounce.run_quiet {E : Type} (w : Nat) :
    ∀ (calls : List (Nat × E)) (t : Nat) (e : E) (d : Debounce E),
      gapsLT w ((t, e) :: calls) = true →
      (∀ tf ev, d.timer = some (tf, ev) → t < tf) →
      d._wait = w →
      ∃ tl el, ((t, e) :: calls).getLast? = some (tl, el) ∧
        Debounce.run ((t, e) :: calls) d
          = { d with timer := some (tl + w, el), lastEvent := some el } := by
  intro calls
  induction calls with
  | nil =>
    intro t e d hg htimer hw
    refine ⟨t, e, rfl, ?_⟩
    simp only [Debounce.run, List.foldl_cons, List.foldl_nil]
    rw [Debounce.handle_fresh t e d htimer, hw]
  | cons c rest ih =>
    intro t e d hg htimer hw
    obtain ⟨t2, e2⟩ := c
    have hg1 : t2 < t + w := by
      simp only [gapsLT, Bool.and_eq_true, decide_eq_true_eq] at hg
      exact hg.1.2
    have hg2 : gapsLT w ((t2, e2) :: rest) = true := by
      simp only [gapsLT, Bool.and_eq_true, decide_eq_true_eq] at hg ⊢
      exact hg.2
    have hstep := Debounce.handle_fresh t e d htimer
    have hrec := ih t2 e2 (Debounce.handle t e d) hg2
      (by
        intro tf ev htf
        rw [hstep] at htf
        simp only at htf
        obtain ⟨h1, h2⟩ := Prod.mk.injEq .. ▸ Option.some.injEq .. ▸ htf
        omega)
      (by rw [hstep, hw])
    obtain ⟨tl, el, hlast, hrun⟩ := hrec
    refine ⟨tl, el, ?_, ?_⟩
    · rw [List.getLast?_cons_cons]; exact hlast
    · show Debounce.run ((t2, e2) :: rest) (Debounce.handle t e d) = _
      rw [hrun, hstep]

/-- C5: for a nonempty `handle` sequence whose consecutive calls are
separated by less than the wait time `w`, the wrapped handler fires exactly
once, with the last event, and exactly `w` after the last call (hence no
earlier); no earlier pending event ever fires. -/
theorem c5_debounce_quiescence {E : Type} (w : Nat) (t : Nat) (e : E)
    (rest : List (Nat × E)) (hg : gapsLT w ((t, e) :: rest) = true) :
    ∃ tl el, ((t, e) :: rest).getLast? = some (tl, el) ∧
      (Debounce.run ((t, e) :: rest) (Debounce.new E w)).fired = [] ∧
      (Debounce.finish (Debounce.run ((t, e) :: rest) (Debounce.new E w))).fired
        = [(tl + w, el)] := by
  obtain ⟨tl, el, hlast, hrun⟩ :=
    Debounce.run_quiet w rest t e (Debounce.new E w) hg (by intro tf ev h; simp [Debounce.new] at h) rfl
  refine ⟨tl, el, hlast, ?_, ?_⟩
  · rw [hrun]; rfl
  · rw [hrun]; rfl

/-- C5 witness: three calls at 0, 10, 20 ms with wait 50 ms fire exactly once,
with the last event, at 70 ms. -/
theorem c5_debounce_quiescence_witness :
    ∃ tl el, (((0, 1) :: [(10, 2), (20, 3)]) : List (Nat × Nat)).getLast? = some (tl, el) ∧
      (Debounce.run ((0, 1) :: [(10, 2), (20, 3)]) (Debounce.new Nat 50)).fired = [] ∧
      (Debounce.finish (Debounce.run ((0, 1) :: [(10, 2), (20, 3)])
          (Debounce.new Nat 50))).fired = [(tl + 50, el)] :=
  c5_debounce_quiescence 50 0 1 [(10, 2), (20, 3)] (by decide)

/-- C7: assigning to `wait` is ineffective.  A `Debounce` constructed with
wait 1000 and subjected to the assignment `wait = 5` still schedules `handle`
at `now + 1000`, not `now + 5`; likewise the provider's `debounceWait` setter
leaves every mapped debouncer scheduling with its construction-time wait. -/
theorem c7_wait_setter_ineffective :
    (Debounce.handle 0 (7 : Nat) (Debounce.setWaitProperty 5 (Debounce.new Nat 1000))).timer
        = some (1000, 7) ∧
      (Debounce.handle 0 (7 : Nat) (Debounce.setWaitProperty 5 (Debounce.new Nat 1000))).timer
        ≠ some (0 + 5, 7) ∧
      ((DiagnosticsProvider.add docA DiagnosticsProvider.new).map fun st =>
          ((DiagnosticsProvider.setDebounceWait 5 st).debounceMap.lookup "file:///a.php").map
            fun d => (Debounce.handle 0 "x" d).timer)
        = .ok (some (some (1000, "x"))) := by
  exact ⟨rfl, by decide, rfl⟩

/-! ## Sibling navigation -/

/-- C8: evaluated at a parent with children `a`, `b`, `c` and current node
`b`.  Because `childIndex` is computed as `children.indexOf(this)` — the
traverser object, never an element — `nextSibling` replaces the spine top
with the parent's FIRST child `a` (the claim requires `c`), and `prevSibling`
returns `null` (the claim requires `a`). -/
theorem c8_sibling_indexOf_bug :
    TreeTraverser.nextSibling [rootABC, bNode] = (some aNode, [rootABC, aNode]) ∧
      TreeTraverser.prevSibling [rootABC, bNode] = (none, [rootABC, bNode]) ∧
      (Forest.toList rootABC.children).get? 1 = some bNode ∧
      (Forest.toList rootABC.children).get? 2 = some cNode ∧
      aNode ≠ cNode := by
  refine ⟨rfl, rfl, rfl, rfl, by decide⟩

/-! ## DiagnosticsProvider -/

/-- The `_find` loop yields a document exactly when the remaining list holds a
matching URI or one was already found. -/
theorem DiagnosticsProvider.findLoop_isSome (uri : String) :
    ∀ (docs shifted : List ParsedDocument) (found : Option ParsedDocument),
      ((DiagnosticsProvider.findLoop uri docs shifted found).1).isSome
        = (found.isSome || docs.any fun d => d.uri == uri) := by
  intro docs
  induction docs with
  | nil => intro shifted found; simp [DiagnosticsProvider.findLoop]
  | cons d rest ih =>
    intro shifted found
    by_cases hd : d.uri = uri
    · simp [DiagnosticsProvider.findLoop, hd, ih]
    · have hb : (d.uri == uri) = false := beq_eq_false_iff_ne.mpr hd
      simp [DiagnosticsProvider.findLoop, hd, ih, hb]

/-- `_find` returns the same found document as its loop. -/
theorem DiagnosticsProvider._find_fst (uri : String) (st : DiagnosticsProvider) :
    (DiagnosticsProvider._find uri st).1
      = (DiagnosticsProvider.findLoop uri st.docs [] none).1 := by
  rw [DiagnosticsProvider._find]
  cases h : (DiagnosticsProvider.findLoop uri st.docs [] none).1 <;> simp [h]

/-- `has` is truthy exactly when some registered document carries the URI. -/
theorem DiagnosticsProvider.has_fst (uri : String) (st : DiagnosticsProvider) :
    (DiagnosticsProvider.has uri st).1 = st.docs.any (fun d => d.uri == uri) := by
  show (DiagnosticsProvider._find uri st).1.isSome = _
  rw [DiagnosticsProvider._find_fst, DiagnosticsProvider.findLoop_isSome]
  simp


/-- When no document matches, the `_find` loop rebuilds the list unchanged
behind the accumulator and finds nothing. -/
theorem DiagnosticsProvider.findLoop_no_match (uri : String) :
    ∀ (docs shifted : List ParsedDocument),
      (∀ d ∈ docs, d.uri ≠ uri) →
      DiagnosticsProvider.findLoop uri docs shifted none = (none, shifted ++ docs) := by
  intro docs
  induction docs with
  | nil => intro shifted h; simp [DiagnosticsProvider.findLoop]
  | cons d rest ih =>
    intro shifted h
    have hd : d.uri ≠ uri := h d (by simp)
    rw [DiagnosticsProvider.findLoop, if_neg hd, ih _ (fun x hx => h x (by simp [hx]))]
    simp

/-- On a fresh URI, `has` reports false and leaves the registry unchanged. -/
theorem DiagnosticsProvider.has_fresh (uri : String) (st : DiagnosticsProvider)
    (h : ∀ d ∈ st.docs, d.uri ≠ uri) :
    DiagnosticsProvider.has uri st = (false, st) := by
  rw [DiagnosticsProvider.has, DiagnosticsProvider._find,
    DiagnosticsProvider.findLoop_no_match uri st.docs [] h]
  rfl

/-- C9: `add` raises exactly on a duplicate URI; on a fresh URI it registers
the document at the front, creates its per-URI debouncer with the current
wait time, records the change-event subscription, and the registry then holds
exactly one document with that URI. -/
theorem c9_add_duplicate_key (st : DiagnosticsProvider) (doc : ParsedDocument) :
    ((∃ e, DiagnosticsProvider.add doc st = .error e) ↔ ∃ d ∈ st.docs, d.uri = doc.uri) ∧
      ((∀ d ∈ st.docs, d.uri ≠ doc.uri) →
        DiagnosticsProvider.add doc st = .ok { st with
          docs := doc :: st.docs,
          debounceMap := (doc.uri, Debounce.new String st.debounceWaitTime) :: st.debounceMap,
          unsubscribeMap := doc.uri :: st.unsubscribeMap } ∧
        (doc :: st.docs).countP (fun d => d.uri == doc.uri) = 1) := by
  constructor
  · constructor
    · rintro ⟨e, he⟩
      rw [DiagnosticsProvider.add] at he
      by_cases hh : (DiagnosticsProvider.has doc.uri st).1 = true
      · rw [DiagnosticsProvider.has_fst] at hh
        simpa [List.any_eq_true, beq_iff_eq] using hh
      · simp only [Bool.not_eq_true] at hh
        rw [hh] at he
        simp at he
    · intro hex
      have hh : (DiagnosticsProvider.has doc.uri st).1 = true := by
        rw [DiagnosticsProvider.has_fst]
        simpa [List.any_eq_true, beq_iff_eq] using hex
      refine ⟨"Duplicate Key", ?_⟩
      rw [DiagnosticsProvider.add, if_pos hh]
  · intro hfresh
    have hhas := DiagnosticsProvider.has_fresh doc.uri st hfresh
    constructor
    · rw [DiagnosticsProvider.add, hhas]
      simp
    · have hzero : List.countP (fun d => d.uri == doc.uri) st.docs = 0 :=
        List.countP_eq_zero.mpr (by
          intro d hd
          simpa [beq_iff_eq] using hfresh d hd)
      simp [List.countP_cons, hzero]

/-- C9 witness: adding a document to a fresh provider succeeds and yields the
expected registration. -/
theorem c9_add_duplicate_key_witness :
    DiagnosticsProvider.add docA DiagnosticsProvider.new
        = .ok { DiagnosticsProvider.new with
            docs := docA :: (DiagnosticsProvider.new).docs,
            debounceMap := (docA.uri,
              Debounce.new String (DiagnosticsProvider.new).debounceWaitTime)
                :: (DiagnosticsProvider.new).debounceMap,
            unsubscribeMap := docA.uri :: (DiagnosticsProvider.new).unsubscribeMap } ∧
      (docA :: (DiagnosticsProvider.new).docs).countP (fun d => d.uri == docA.uri) = 1 :=
  (c9_add_duplicate_key DiagnosticsProvider.new docA).2 (by simp [DiagnosticsProvider.new])

/-- C1: the cap is never applied.  The constructor sets the public `maxItems`
to 100, but `_diagnose` slices with the private `_maxItems`, which no code
ever assigns; `slice(0, undefined)` copies the whole array.  A change event
for a document carrying 101 parse errors therefore publishes 101 diagnostics,
exceeding `maxItems`. -/
theorem c1_cap_never_applied :
    ((DiagnosticsProvider.add doc101 DiagnosticsProvider.new).map fun st =>
        (((DiagnosticsProvider.onParsedDocumentChanged "file:///big.php" st).1.2).length,
          st.maxItems))
      = .ok (101, 100) ∧ 100 < 101 := by
  exact ⟨rfl, by decide⟩

end Intelephense
